import Mathlib

/-!
Verification of the zk-100 host pipeline (assembler, instruction encoding,
Merkle commitment, ABI argument encoder) against its specification.

The Rust sources under `src/host/src/` are shallowly embedded:
* Rust `u32` values are `Nat` with explicit `% 2 ^ 32` / `&&& 0xFF`
  truncation where the code truncates;
* Rust `&str` is modelled as `List Char` (`Str` below); the standard
  library string helpers used by the code (`trim`, `split_whitespace`,
  `starts_with`, `ends_with`, `trim_end_matches`, `to_uppercase`,
  `parse::<u32>`, …) are given explicit executable models;
* fallible Rust functions returning `anyhow::Result` become
  `Except Str`, carrying the formatted error message;
* the external Poseidon permutation (`starknet_crypto::poseidon_hash`,
  a dependency, not part of this repository) is an abstract parameter
  `hash : Nat → Nat → Nat` of every commitment-level definition; no
  claim below depends on its concrete value;
* the `HashMap` iteration order of the assembler's second pass is an
  explicit `order` parameter, so that order-independence is provable.
-/

namespace ZK100

/-! ## Instruction model (src/host/src/instruction.rs) -/

/-- `Op` from instruction.rs, with its fixed discriminants 1–13. -/
inductive Op where
  | Mov | Add | Sub | Neg | Sav | Swp
  | Jmp | Jz | Jnz | Jgz | Jlz | Nop | Hlt
deriving DecidableEq, Repr

/-- The numeric discriminant of `Op` (`self.op as u32` in Rust). -/
def Op.code : Op → Nat
  | .Mov => 1 | .Add => 2 | .Sub => 3 | .Neg => 4 | .Sav => 5 | .Swp => 6
  | .Jmp => 7 | .Jz => 8 | .Jnz => 9 | .Jgz => 10 | .Jlz => 11
  | .Nop => 12 | .Hlt => 13

/-- `PortTag` from instruction.rs, discriminants 0–3. -/
inductive PortTag where
  | Up | Down | Left | Right
deriving DecidableEq, Repr

/-- The numeric discriminant of `PortTag` (`port as u32` in Rust). -/
def PortTag.code : PortTag → Nat
  | .Up => 0 | .Down => 1 | .Left => 2 | .Right => 3

/-- `Src` from instruction.rs. `Lit` carries a `u32`, modelled as `Nat`
(every value actually constructed by the code is `< 2 ^ 32`). -/
inductive Src where
  | Lit (v : Nat) | Acc | Nil | In | P (p : PortTag) | Last
deriving DecidableEq, Repr

/-- `Src::to_code` from instruction.rs. -/
def Src.toCode : Src → Nat
  | .Lit _ => 0 | .Acc => 1 | .Nil => 2 | .In => 3 | .P _ => 4 | .Last => 5

/-- `Dst` from instruction.rs. -/
inductive Dst where
  | Acc | Nil | Out | P (p : PortTag) | Last
deriving DecidableEq, Repr

/-- `Dst::to_code` from instruction.rs. -/
def Dst.toCode : Dst → Nat
  | .Acc => 0 | .Nil => 1 | .Out => 2 | .P _ => 3 | .Last => 4

/-- `Inst` from instruction.rs. -/
structure Inst where
  op : Op
  src : Src
  dst : Dst
deriving DecidableEq, Repr

/-- `Inst::encode` from instruction.rs:
format `lit(8) | src_port(2) | dst_port(2) | op(4) | src(8) | dst(8)`. -/
def Inst.encode (i : Inst) : Nat :=
  let lit_val : Nat := match i.src with | .Lit v => v | _ => 0
  let src_port : Nat := match i.src with | .P p => p.code | _ => 0
  let dst_port : Nat := match i.dst with | .P p => p.code | _ => 0
  ((lit_val &&& 0xFF) <<< 24) |||
  ((src_port &&& 0x3) <<< 22) |||
  ((dst_port &&& 0x3) <<< 20) |||
  ((i.op.code &&& 0xF) <<< 16) |||
  ((i.src.toCode &&& 0xFF) <<< 8) |||
  (i.dst.toCode &&& 0xFF)

/-- The `lit_val` local of `Inst::encode`: the literal value of the source
operand, `0` when the source is not a literal. -/
def Inst.litValue (i : Inst) : Nat :=
  match i.src with | .Lit v => v | _ => 0

/-- The `src_port` local of `Inst::encode`: the direction code of the
source port, `0` when the source is not a port. -/
def Inst.srcPortCode (i : Inst) : Nat :=
  match i.src with | .P p => p.code | _ => 0

/-- The `dst_port` local of `Inst::encode`: the direction code of the
destination port, `0` when the destination is not a port. -/
def Inst.dstPortCode (i : Inst) : Nat :=
  match i.dst with | .P p => p.code | _ => 0

theorem Op.code_lt16 (op : Op) : op.code < 16 := by
  cases op <;> decide

theorem PortTag.code_lt4 (p : PortTag) : p.code < 4 := by
  cases p <;> decide

theorem or_add_pow (n a b : Nat) (hb : b < 2 ^ n) :
    (a <<< n) ||| b = a * 2 ^ n + b := by
  rw [Nat.shiftLeft_eq, Nat.mul_comm a (2 ^ n)]
  exact (Nat.mul_add_lt_is_or hb a).symm

theorem encode_fields (l sp dp oc sc dc : Nat)
    (hsp : sp < 4) (hdp : dp < 4) (hoc : oc < 16)
    (hsc : sc < 256) (hdc : dc < 256) :
    ((l % 256) <<< 24) ||| ((sp % 4) <<< 22) ||| ((dp % 4) <<< 20) |||
        ((oc % 16) <<< 16) ||| ((sc % 256) <<< 8) ||| (dc % 256)
      = l % 256 * 2 ^ 24 + sp * 2 ^ 22 + dp * 2 ^ 20 + oc * 2 ^ 16 +
        sc * 2 ^ 8 + dc := by
  have h256 : l % 256 < 256 := Nat.mod_lt _ (by decide)
  rw [Nat.mod_eq_of_lt hsp, Nat.mod_eq_of_lt hdp, Nat.mod_eq_of_lt hoc,
    Nat.mod_eq_of_lt hsc, Nat.mod_eq_of_lt hdc]
  have hb0 : dc < 2 ^ 8 := lt_of_lt_of_le hdc (by norm_num)
  have hb1 : sc * 2 ^ 8 + dc < 2 ^ 16 := by
    norm_num at hsc hdc ⊢; omega
  have hb2 : oc * 2 ^ 16 + (sc * 2 ^ 8 + dc) < 2 ^ 20 := by
    norm_num at hoc hb1 ⊢; omega
  have hb3 : dp * 2 ^ 20 + (oc * 2 ^ 16 + (sc * 2 ^ 8 + dc)) < 2 ^ 22 := by
    norm_num at hdp hb2 ⊢; omega
  have hb4 : sp * 2 ^ 22 + (dp * 2 ^ 20 + (oc * 2 ^ 16 + (sc * 2 ^ 8 + dc)))
      < 2 ^ 24 := by
    norm_num at hsp hb3 ⊢; omega
  rw [Nat.or_assoc, Nat.or_assoc, Nat.or_assoc, Nat.or_assoc,
    or_add_pow 8 sc dc hb0, or_add_pow 16 oc _ hb1, or_add_pow 20 dp _ hb2,
    or_add_pow 22 sp _ hb3, or_add_pow 24 (l % 256) _ hb4]
  ring

theorem and_255_eq_mod (x : Nat) : x &&& 255 = x % 256 := by
  have h := Nat.and_pow_two_sub_one_eq_mod x 8
  norm_num at h
  exact h

theorem and_3_eq_mod (x : Nat) : x &&& 3 = x % 4 := by
  have h := Nat.and_pow_two_sub_one_eq_mod x 2
  norm_num at h
  exact h

theorem and_15_eq_mod (x : Nat) : x &&& 15 = x % 16 := by
  have h := Nat.and_pow_two_sub_one_eq_mod x 4
  norm_num at h
  exact h

/-- C1: for every structurally valid instruction, `encode` returns the
32-bit word whose bits 31–24 are the low byte of the literal value (0 if
the source is not a literal), bits 23–22 the source port direction code
(0 if the source is not a port), bits 21–20 the destination port
direction code (0 if the destination is not a port), bits 19–16 the
operation code, bits 15–8 the source operand tag code and bits 7–0 the
destination operand tag code; each field sits at its bit offset, every
field is small enough not to overlap the next one, and the literal field
keeps only `v % 256` — so for a literal `v ≥ 256` the high bits are lost. -/
theorem C1_encode_bit_layout (i : Inst) :
    i.encode = i.litValue % 256 * 2 ^ 24 + i.srcPortCode * 2 ^ 22 +
      i.dstPortCode * 2 ^ 20 + i.op.code * 2 ^ 16 +
      i.src.toCode * 2 ^ 8 + i.dst.toCode := by
  obtain ⟨op, src, dst⟩ := i
  cases src <;> cases dst <;>
    (simp only [Inst.encode, Inst.litValue, Inst.srcPortCode,
      Inst.dstPortCode, Src.toCode, Dst.toCode,
      and_255_eq_mod, and_3_eq_mod, and_15_eq_mod]
     exact encode_fields _ _ _ _ _ _
      (by first | decide | exact PortTag.code_lt4 _)
      (by first | decide | exact PortTag.code_lt4 _)
      (Op.code_lt16 op) (by decide) (by decide))

/-! ## Merkle commitment (src/host/src/merkle.rs)

The Poseidon `hash_pair` calls the external `starknet_crypto` crate; the
whole development is parameterised by an abstract `hash : Nat → Nat → Nat`
standing for `hash_pair`. -/

/-- One round of the `for i in (0..len).step_by(2)` loop of `merkle_root`,
including the source's `right = if i + 1 < len { v[i+1] } else { 0 }`
guard for a trailing odd element. -/
def pairUp (hash : Nat → Nat → Nat) : List Nat → List Nat
  | [] => []
  | [x] => [hash x 0]
  | x :: y :: rest => hash x y :: pairUp hash rest

/-- The `while current_level.len() > 1` loop of `merkle_root`. `fuel`
bounds the number of rounds; every caller passes the list length, which
always suffices since each round at least halves a length ≥ 2 list. The
`[]` case (where the Rust code would index out of bounds) is unreachable
from `merkle_root`. -/
def buildLevels (hash : Nat → Nat → Nat) : Nat → List Nat → Nat
  | _, [] => 0
  | _, [x] => x
  | 0, _ :: _ :: _ => 0
  | fuel + 1, x :: y :: rest => buildLevels hash fuel (pairUp hash (x :: y :: rest))

/-- The `let mut power = 1; while power < len { power *= 2 }` loop of
`merkle_root`. `fuel` bounds iterations; `power` doubles each round, so
`len` units of fuel always suffice. -/
def nextPow2Go (len : Nat) : Nat → Nat → Nat
  | power, 0 => power
  | power, fuel + 1 => if power < len then nextPow2Go len (power * 2) fuel else power

/-- The padded target size of `merkle_root`: the `power` value after the
doubling loop, starting from 1. -/
def nextPow2 (len : Nat) : Nat := nextPow2Go len 1 len

/-- `merkle_root` from merkle.rs: empty list gives 0, a singleton is
returned unhashed, otherwise pad with zeros to `nextPow2` of the length
and reduce level by level. -/
def merkle_root (hash : Nat → Nat → Nat) (leaves : List Nat) : Nat :=
  match leaves with
  | [] => 0
  | [x] => x
  | _ :: _ :: _ =>
    let power := nextPow2 leaves.length
    let padded := leaves ++ List.replicate (power - leaves.length) 0
    buildLevels hash padded.length padded

/-- One pairing round exactly as the spec words it: each adjacent pair
(index 2i, 2i+1) is replaced by `hash left right`; defined from the
spec's words (an odd trailing element would be left alone, a case the
spec never reaches because lengths are powers of two). For comparison
with `pairUp`. -/
def specPairRound (hash : Nat → Nat → Nat) : List Nat → List Nat
  | x :: y :: rest => hash x y :: specPairRound hash rest
  | xs => xs

/-- The spec's reduction: repeatedly pair adjacent elements until one
element remains; defined from the spec's words, `fuel` bounding rounds. -/
def specReduce (hash : Nat → Nat → Nat) : Nat → List Nat → Nat
  | _, [] => 0
  | _, [x] => x
  | 0, _ :: _ :: _ => 0
  | fuel + 1, x :: y :: rest => specReduce hash fuel (specPairRound hash (x :: y :: rest))

theorem pairUp_length (hash : Nat → Nat → Nat) :
    (xs : List Nat) → (pairUp hash xs).length = (xs.length + 1) / 2
  | [] => rfl
  | [_] => by simp [pairUp]
  | _ :: _ :: rest => by
    simp only [pairUp, List.length_cons, pairUp_length hash rest]
    omega

theorem pairUp_even_eq (hash : Nat → Nat → Nat) :
    (xs : List Nat) → xs.length % 2 = 0 → pairUp hash xs = specPairRound hash xs
  | [], _ => rfl
  | [_], h => by simp at h
  | _ :: _ :: rest, h => by
    simp only [pairUp, specPairRound]
    exact congrArg _ (pairUp_even_eq hash rest
      (by simp only [List.length_cons] at h; omega))

theorem buildLevels_eq_spec (hash : Nat → Nat → Nat) :
    ∀ (k fuel1 fuel2 : Nat) (xs : List Nat),
      xs.length = 2 ^ k → k ≤ fuel1 → k ≤ fuel2 →
      buildLevels hash fuel1 xs = specReduce hash fuel2 xs := by
  intro k
  induction k with
  | zero =>
    intro fuel1 fuel2 xs hlen _ _
    norm_num at hlen
    match xs, hlen with
    | [x], _ => simp [buildLevels, specReduce]
  | succ k ih =>
    intro fuel1 fuel2 xs hlen hf1 hf2
    have hpos : 0 < 2 ^ k := pow_pos (by decide) k
    have hpow : (2 : Nat) ^ (k + 1) = 2 ^ k * 2 := by rw [pow_succ]
    match xs with
    | [] =>
      rw [hpow] at hlen
      simp only [List.length_nil] at hlen
      omega
    | [x] =>
      rw [hpow] at hlen
      simp only [List.length_cons, List.length_nil] at hlen
      omega
    | x :: y :: rest =>
      obtain ⟨f1, rfl⟩ : ∃ f, fuel1 = f + 1 := ⟨fuel1 - 1, by omega⟩
      obtain ⟨f2, rfl⟩ : ∃ f, fuel2 = f + 1 := ⟨fuel2 - 1, by omega⟩
      have heven : (x :: y :: rest).length % 2 = 0 := by
        rw [hlen, hpow]; omega
      have hplen : (pairUp hash (x :: y :: rest)).length = 2 ^ k := by
        rw [pairUp_length, hlen, hpow]; omega
      simp only [buildLevels, specReduce]
      rw [← pairUp_even_eq hash _ heven]
      exact ih f1 f2 _ hplen (by omega) (by omega)

theorem nextPow2Go_pow (len : Nat) :
    ∀ (fuel power : Nat), ∃ j, nextPow2Go len power fuel = power * 2 ^ j := by
  intro fuel
  induction fuel with
  | zero => exact fun power => ⟨0, by simp [nextPow2Go]⟩
  | succ fuel ih =>
    intro power
    by_cases h : power < len
    · obtain ⟨j, hj⟩ := ih (power * 2)
      exact ⟨j + 1, by simp [nextPow2Go, h, hj]; ring⟩
    · exact ⟨0, by simp [nextPow2Go, h]⟩

theorem nextPow2Go_ge (len : Nat) :
    ∀ (fuel power : Nat), len ≤ power * 2 ^ fuel →
      len ≤ nextPow2Go len power fuel := by
  intro fuel
  induction fuel with
  | zero => intro power h; simpa [nextPow2Go] using h
  | succ fuel ih =>
    intro power h
    by_cases hlt : power < len
    · simp only [nextPow2Go, if_pos hlt]
      exact ih (power * 2) (le_of_le_of_eq h (by ring))
    · simp only [nextPow2Go, if_neg hlt]
      omega

theorem nextPow2Go_lt (len : Nat) :
    ∀ (fuel power : Nat), power < 2 * len →
      nextPow2Go len power fuel < 2 * len := by
  intro fuel
  induction fuel with
  | zero => intro power h; simpa [nextPow2Go] using h
  | succ fuel ih =>
    intro power h
    by_cases hlt : power < len
    · simp only [nextPow2Go, if_pos hlt]
      exact ih (power * 2) (by omega)
    · simp only [nextPow2Go, if_neg hlt]
      exact h

theorem nextPow2_pow (len : Nat) : ∃ j, nextPow2 len = 2 ^ j := by
  obtain ⟨j, hj⟩ := nextPow2Go_pow len len 1
  exact ⟨j, by simpa using hj⟩

theorem nextPow2_ge (len : Nat) : len ≤ nextPow2 len :=
  nextPow2Go_ge len len 1 (by simpa using Nat.le_of_lt (Nat.lt_two_pow len))

theorem nextPow2_lt (len : Nat) (h : 1 ≤ len) : nextPow2 len < 2 * len :=
  nextPow2Go_lt len len 1 (by omega)

/-- C2: the Merkle reduction of a list of at least two field elements
pads the list on the right with zeros to the next power of two (a power
of two that is ≥ the length and minimal, i.e. `< 2 ·` the length) and
then repeatedly replaces each adjacent pair (2i, 2i+1) by
`hash left right` until one element remains; and on any `[a, b, c]` the
result is `hash (hash a b) (hash c 0)`. -/
theorem C2_merkle_reduction :
    (∀ (hash : Nat → Nat → Nat) (xs : List Nat), 2 ≤ xs.length →
      (∃ k, nextPow2 xs.length = 2 ^ k) ∧
      xs.length ≤ nextPow2 xs.length ∧
      nextPow2 xs.length < 2 * xs.length ∧
      merkle_root hash xs =
        specReduce hash (nextPow2 xs.length)
          (xs ++ List.replicate (nextPow2 xs.length - xs.length) 0)) ∧
    (∀ (hash : Nat → Nat → Nat) (a b c : Nat),
      merkle_root hash [a, b, c] = hash (hash a b) (hash c 0)) := by
  constructor
  · intro hash xs hlen
    refine ⟨nextPow2_pow _, nextPow2_ge _, nextPow2_lt _ (by omega), ?_⟩
    match xs, hlen with
    | x :: y :: rest, _ =>
      obtain ⟨k, hk⟩ := nextPow2_pow (x :: y :: rest).length
      have hge := nextPow2_ge (x :: y :: rest).length
      have hplen :
          ((x :: y :: rest) ++
            List.replicate
              (nextPow2 (x :: y :: rest).length - (x :: y :: rest).length) 0).length
            = 2 ^ k := by
        simp only [List.length_append, List.length_replicate]
        omega
      have hk_le : k ≤ 2 ^ k := Nat.le_of_lt (Nat.lt_two_pow k)
      show buildLevels hash _ _ = _
      rw [hplen]
      exact buildLevels_eq_spec hash k _ _ _ hplen hk_le (by omega)
  · intro hash a b c
    rfl

/-- Witness for C2 at `xs = [1, 2, 3]` and a concrete hash function. -/
theorem C2_merkle_reduction_witness :
    (∃ k, nextPow2 ([1, 2, 3] : List Nat).length = 2 ^ k) ∧
    ([1, 2, 3] : List Nat).length ≤ nextPow2 ([1, 2, 3] : List Nat).length ∧
    nextPow2 ([1, 2, 3] : List Nat).length < 2 * ([1, 2, 3] : List Nat).length ∧
    merkle_root (fun a b => 31 * a + b) [1, 2, 3] =
      specReduce (fun a b => 31 * a + b) (nextPow2 ([1, 2, 3] : List Nat).length)
        ([1, 2, 3] ++
          List.replicate (nextPow2 ([1, 2, 3] : List Nat).length -
            ([1, 2, 3] : List Nat).length) 0) :=
  C2_merkle_reduction.1 (fun a b => 31 * a + b) [1, 2, 3] (by decide)

/-- C3: the Merkle reduction of the empty list is the zero element, and
the reduction of any single-element list is that element, unhashed. -/
theorem C3_merkle_empty_single :
    (∀ hash : Nat → Nat → Nat, merkle_root hash [] = 0) ∧
    (∀ (hash : Nat → Nat → Nat) (x : Nat), merkle_root hash [x] = x) :=
  ⟨fun _ => rfl, fun _ _ => rfl⟩

/-! ## String model

Rust `&str` is modelled as `List Char`. The helpers below model the Rust
standard-library string operations the host code uses. -/

/-- Model of Rust `&str`. -/
abbrev Str := List Char

/-- Rust `str::to_uppercase` (the code only ever applies it to ASCII). -/
def toUpperStr (s : Str) : Str := s.map Char.toUpper

/-- Rust `str::starts_with(pat)`. -/
def strStartsWith (s pat : Str) : Bool :=
  match pat, s with
  | [], _ => true
  | _ :: _, [] => false
  | p :: ps, c :: cs => p == c && strStartsWith cs ps

/-- Rust `str::ends_with(ch)`. -/
def strEndsWithChar (s : Str) (ch : Char) : Bool :=
  s.getLast? == some ch

/-- Rust `str::trim` (leading and trailing whitespace removed). -/
def trimStr (s : Str) : Str :=
  ((s.dropWhile Char.isWhitespace).reverse.dropWhile Char.isWhitespace).reverse

/-- Rust `str::trim_end_matches(ch)`: drop every trailing `ch`. -/
def dropTrailing (s : Str) (ch : Char) : Str :=
  (s.reverse.dropWhile (· == ch)).reverse

/-- Rust `str::trim_matches(p)` for a character set: drop every leading
and trailing character satisfying `p`. -/
def trimMatches (s : Str) (p : Char → Bool) : Str :=
  ((s.dropWhile p).reverse.dropWhile p).reverse

/-- Accumulator loop for `split_whitespace`. -/
def splitWsGo : Str → Str → List Str
  | [], cur => if cur.isEmpty then [] else [cur]
  | c :: rest, cur =>
    if c.isWhitespace then
      if cur.isEmpty then splitWsGo rest [] else cur :: splitWsGo rest []
    else splitWsGo rest (cur ++ [c])

/-- Rust `str::split_whitespace().collect()`: maximal non-whitespace
runs, empties dropped. -/
def splitWs (s : Str) : List Str := splitWsGo s []

/-- Accumulator loop for `split(ch)`. -/
def splitOnCharGo (ch : Char) : Str → Str → List Str
  | [], cur => [cur]
  | c :: rest, cur =>
    if c == ch then cur :: splitOnCharGo ch rest []
    else splitOnCharGo ch rest (cur ++ [c])

/-- Rust `str::split(ch).collect()`: empty pieces are kept, as Rust's
`split` keeps them. -/
def splitOnChar (ch : Char) (s : Str) : List Str := splitOnCharGo ch s []

/-- Numeric value of a digit run. -/
def digitsVal (cs : Str) : Nat :=
  cs.foldl (fun a c => a * 10 + (c.toNat - '0'.toNat)) 0

/-- A non-empty all-digit run, the body of a Rust unsigned parse. -/
def parseNatBody? (cs : Str) : Option Nat :=
  if !cs.isEmpty && cs.all Char.isDigit then some (digitsVal cs) else none

/-- Strip the single optional leading `+` Rust's integer parsers accept. -/
def stripPlus (cs : Str) : Str :=
  match cs with
  | '+' :: rest => rest
  | _ => cs

/-- Rust `str::parse::<u32>()`: optional `+`, digits, range check. -/
def parseU32? (cs : Str) : Option Nat :=
  match parseNatBody? (stripPlus cs) with
  | some v => if v < 2 ^ 32 then some v else none
  | none => none

/-- Rust `str::parse::<usize>()` (64-bit): optional `+`, digits, range
check. -/
def parseUsize? (cs : Str) : Option Nat :=
  match parseNatBody? (stripPlus cs) with
  | some v => if v < 2 ^ 64 then some v else none
  | none => none

/-- Rust `str::parse::<i32>()`: optional sign, digits, range check. -/
def parseI32? (cs : Str) : Option Int :=
  match cs with
  | '-' :: rest =>
    match parseNatBody? rest with
    | some v => if v ≤ 2 ^ 31 then some (-(v : Int)) else none
    | none => none
  | _ =>
    match parseNatBody? (stripPlus cs) with
    | some v => if v < 2 ^ 31 then some (v : Int) else none
    | none => none

/-! ## Text parsing (src/host/src/instruction.rs) -/

/-- `Op::from_str` from instruction.rs (case-insensitive mnemonics). -/
def Op.fromStr (s : Str) : Except Str Op :=
  let u := toUpperStr s
  if u = "MOV".toList then .ok .Mov
  else if u = "ADD".toList then .ok .Add
  else if u = "SUB".toList then .ok .Sub
  else if u = "NEG".toList then .ok .Neg
  else if u = "SAV".toList then .ok .Sav
  else if u = "SWP".toList then .ok .Swp
  else if u = "JMP".toList then .ok .Jmp
  else if u = "JZ".toList then .ok .Jz
  else if u = "JNZ".toList then .ok .Jnz
  else if u = "JGZ".toList then .ok .Jgz
  else if u = "JLZ".toList then .ok .Jlz
  else if u = "NOP".toList then .ok .Nop
  else if u = "HLT".toList then .ok .Hlt
  else .error ("Unknown operation: ".toList ++ s)

/-- `PortTag::from_str` from instruction.rs. -/
def PortTag.fromStr (s : Str) : Except Str PortTag :=
  let u := toUpperStr s
  if u = "UP".toList then .ok .Up
  else if u = "DOWN".toList then .ok .Down
  else if u = "LEFT".toList then .ok .Left
  else if u = "RIGHT".toList then .ok .Right
  else .error ("Unknown port: ".toList ++ s)

/-- `Src::from_str` from instruction.rs: named operands, then `P:` port,
then `u32` parse, then `i32` parse stored as two's complement. -/
def Src.fromStr (s : Str) : Except Str Src :=
  let upper := toUpperStr s
  if upper = "ACC".toList then .ok .Acc
  else if upper = "NIL".toList then .ok .Nil
  else if upper = "IN".toList then .ok .In
  else if upper = "LAST".toList then .ok .Last
  else if strStartsWith upper ("P:".toList) then
    match PortTag.fromStr (upper.drop 2) with
    | .ok port => .ok (.P port)
    | .error e => .error e
  else
    match parseU32? s with
    | some num => .ok (.Lit num)
    | none =>
      match parseI32? s with
      | some num => .ok (.Lit (num % (2 ^ 32 : Int)).toNat)
      | none => .error ("Invalid source operand: ".toList ++ s)

/-- `Dst::from_str` from instruction.rs. -/
def Dst.fromStr (s : Str) : Except Str Dst :=
  let upper := toUpperStr s
  if upper = "ACC".toList then .ok .Acc
  else if upper = "NIL".toList then .ok .Nil
  else if upper = "OUT".toList then .ok .Out
  else if upper = "LAST".toList then .ok .Last
  else if strStartsWith upper ("P:".toList) then
    match PortTag.fromStr (upper.drop 2) with
    | .ok port => .ok (.P port)
    | .error e => .error e
  else .error ("Invalid destination operand: ".toList ++ s)

/-! ## Assembler (src/host/src/assembler.rs) -/

/-- The per-node label table. `HashMap<String, usize>` with overwriting
`insert` and exact-name `get` is modelled as an association list with
prepend-insert and first-match lookup. -/
abbrev LabelMap := List (Str × Nat)

/-- `HashMap::get` on the label table. -/
def lookupLabel (m : LabelMap) (s : Str) : Option Nat :=
  match m with
  | [] => none
  | (k, v) :: rest => if k = s then some v else lookupLabel rest s

/-- `parse_node_coords` from assembler.rs. -/
def parse_node_coords (s : Str) : Except Str (Fin 2 × Fin 2) :=
  let coords := splitOnChar ',' (trimMatches s (fun c => c == '(' || c == ')'))
  match coords with
  | [a, b] =>
    match parseUsize? (trimStr a), parseUsize? (trimStr b) with
    | some r, some c =>
      if h : r < 2 ∧ c < 2 then .ok (⟨r, h.1⟩, ⟨c, h.2⟩)
      else .error ("Node coordinates must be in 2x2 grid: ".toList ++ s)
    | _, _ => .error ("invalid digit found in string".toList)
  | _ => .error ("Invalid node coordinates: ".toList ++ s)

/-- The state threaded through the first pass of `parse_assembly`:
current node, per-node label tables, per-node pending instruction lines,
and the set of node keys created so far (`keys` records HashMap entry
creation order; lookups default to empty for absent keys, exactly like
`entry().or_insert_with` followed by `get`). -/
structure Pass1State where
  currentNode : Option (Fin 2 × Fin 2)
  labels : Fin 2 × Fin 2 → LabelMap
  instrs : Fin 2 × Fin 2 → List Str
  keys : List (Fin 2 × Fin 2)

/-- The state at the top of `parse_assembly`. -/
def initPass1 : Pass1State := ⟨none, fun _ => [], fun _ => [], []⟩

/-- Point update of a grid-indexed map. -/
def upd {α : Type} (f : Fin 2 × Fin 2 → α) (k : Fin 2 × Fin 2) (v : α) :
    Fin 2 × Fin 2 → α :=
  fun q => if q = k then v else f q

/-- One iteration of the first-pass `for line in code.lines()` loop of
`parse_assembly`: trim, skip blanks and comments, handle `NODE`
declarations (shorter `NODE` lines are skipped), labels, and pending
instruction lines. -/
def pass1Step (st : Pass1State) (rawLine : Str) : Except Str Pass1State :=
  let line := trimStr rawLine
  if line.isEmpty || strStartsWith line ("#".toList) ||
      strStartsWith line ("//".toList) then
    .ok st
  else if strStartsWith line ("NODE".toList) then
    match splitWs line with
    | _ :: p1 :: _ =>
      match parse_node_coords p1 with
      | .ok coords =>
        .ok { st with
          currentNode := some coords,
          keys := if coords ∈ st.keys then st.keys else st.keys ++ [coords] }
      | .error e => .error e
    | _ => .ok st
  else if strEndsWithChar line ':' then
    match st.currentNode with
    | some k =>
      let name := dropTrailing line ':'
      .ok { st with
        labels := upd st.labels k ((name, (st.instrs k).length) :: st.labels k) }
    | none => .ok st
  else
    match st.currentNode with
    | some k => .ok { st with instrs := upd st.instrs k (st.instrs k ++ [line]) }
    | none => .ok st

/-- The whole first pass of `parse_assembly`. -/
def pass1Run : Pass1State → List Str → Except Str Pass1State
  | st, [] => .ok st
  | st, l :: ls =>
    match pass1Step st l with
    | .ok st' => pass1Run st' ls
    | .error e => .error e

/-- `parse_src_operand` from assembler.rs: label lookup first (the
program counter is cast `usize → u32`), then `Src::from_str`. -/
def parse_src_operand (s : Str) (labels : LabelMap) : Except Str Src :=
  match lookupLabel labels s with
  | some pc => .ok (.Lit (pc % 2 ^ 32))
  | none => Src.fromStr s

/-- `parse_instruction` from assembler.rs. -/
def parse_instruction (line : Str) (labels : LabelMap) : Except Str Inst :=
  match splitWs line with
  | [] => .error ("Empty instruction line".toList)
  | p0 :: rest =>
    match Op.fromStr p0 with
    | .error e => .error e
    | .ok op =>
      match op with
      | .Nop | .Hlt | .Neg | .Sav | .Swp => .ok ⟨op, .Nil, .Nil⟩
      | .Add | .Sub | .Jmp | .Jz | .Jnz | .Jgz | .Jlz =>
        match rest with
        | [] => .error ("Missing operand for ".toList ++ p0)
        | p1 :: _ =>
          match parse_src_operand p1 labels with
          | .ok src => .ok ⟨op, src, .Nil⟩
          | .error e => .error e
      | .Mov =>
        match rest with
        | p1 :: p2 :: _ =>
          match parse_src_operand (dropTrailing p1 ',') labels with
          | .ok src =>
            match Dst.fromStr p2 with
            | .ok dst => .ok ⟨op, src, dst⟩
            | .error e => .error e
          | .error e => .error e
        | _ => .error ("MOV requires two operands".toList)

/-- The per-node inner loop of the second pass: parse each pending line
in order, aborting at the first failure. -/
def parseNode (labels : LabelMap) : List Str → Except Str (List Inst)
  | [] => .ok []
  | l :: ls =>
    match parse_instruction l labels with
    | .ok i =>
      match parseNode labels ls with
      | .ok rest => .ok (i :: rest)
      | .error e => .error e
    | .error e => .error e

/-- The second pass of `parse_assembly`: iterate the node entries in the
given HashMap `order`, pushing each node's parsed instructions into its
grid cell. -/
def pass2 (st : Pass1State) :
    List (Fin 2 × Fin 2) → (Fin 2 × Fin 2 → List Inst) →
      Except Str (Fin 2 × Fin 2 → List Inst)
  | [], g => .ok g
  | k :: ks, g =>
    match parseNode (st.labels k) (st.instrs k) with
    | .ok insts => pass2 st ks (upd g k (g k ++ insts))
    | .error e => .error e

/-- `Programs` from assembler.rs (`Vec<Vec<Vec<Inst>>>`; `parse_assembly`
always builds the fixed 2×2 shape). -/
abbrev Programs := List (List (List Inst))

/-- The initial `programs` value of `parse_assembly` with the cells
filled from the grid map, row-major. -/
def gridToPrograms (g : Fin 2 × Fin 2 → List Inst) : Programs :=
  [[g (0, 0), g (0, 1)], [g (1, 0), g (1, 1)]]

/-- `parse_assembly` from assembler.rs. `lines` is the line list of the
source text (Rust `code.lines()`); `order` is the iteration order of the
`node_instructions` HashMap in the second pass — any permutation of the
first pass's key set is a possible order. -/
def parse_assembly (lines : List Str) (order : List (Fin 2 × Fin 2)) :
    Except Str Programs :=
  match pass1Run initPass1 lines with
  | .ok st =>
    match pass2 st order (fun _ => []) with
    | .ok g => .ok (gridToPrograms g)
    | .error e => .error e
  | .error e => .error e

/-- `parse_assembly` run with the entry-creation iteration order (one of
the possible HashMap orders). -/
def parse_assemblyD (lines : List Str) : Except Str Programs :=
  match pass1Run initPass1 lines with
  | .ok st =>
    match pass2 st st.keys (fun _ => []) with
    | .ok g => .ok (gridToPrograms g)
    | .error e => .error e
  | .error e => .error e

/-- One node's contribution to `encode_programs`: the length word
(`usize → u32` cast) followed by the encoded instructions. -/
def nodeBlock (program : List Inst) : List Nat :=
  program.length % 2 ^ 32 :: program.map Inst.encode

/-- `encode_programs` from assembler.rs (the source always returns `Ok`;
modelled as the plain word list): for each node in row-major order, its
length word then its encoded instructions. -/
def encode_programs (programs : Programs) : List Nat :=
  (programs.flatten.map nodeBlock).flatten

/-- The per-node leaf of `compute_program_merkle_root` (merkle.rs):
0 for an empty program, otherwise that node's Merkle root over the
encoded instruction words. -/
def nodeLeaf (hash : Nat → Nat → Nat) (program : List Inst) : Nat :=
  if program.isEmpty then 0
  else merkle_root hash (program.map Inst.encode)

/-- `compute_program_merkle_root` from merkle.rs, before byte
serialisation: the grid-level Merkle root over the four node leaves in
row-major order. -/
def compute_program_merkle_root (hash : Nat → Nat → Nat)
    (programs : Programs) : Nat :=
  merkle_root hash (programs.flatten.map (nodeLeaf hash))

/-- The final 32-byte big-endian serialisation in
`compute_program_merkle_root` (keeps the low 32 bytes, left-padded with
zeros). -/
def rootBytes (n : Nat) : List Nat :=
  (List.range 32).map fun i => n / 2 ^ (8 * (31 - i)) % 256

/-! ## ABI argument encoder (src/host/src/cairo_abi.rs) -/

/-- A lowercase hex digit, as Rust `{:x}` and `to_str_radix(16)`
produce. -/
def hexDigitChar (n : Nat) : Char :=
  if n < 10 then Char.ofNat ('0'.toNat + n) else Char.ofNat ('a'.toNat + (n - 10))

/-- Digit loop of hex formatting; `fuel` bounds recursion depth (`n`
itself always suffices). -/
def toHexCore (fuel n : Nat) : Str :=
  match fuel with
  | 0 => []
  | fuel + 1 =>
    if n = 0 then [] else toHexCore fuel (n / 16) ++ [hexDigitChar (n % 16)]

/-- The digits of Rust `format!("{:x}", v)` / `to_str_radix(16)`:
lowercase hex, `"0"` for zero, no leading zeros. -/
def toHexLower (n : Nat) : Str := if n = 0 then ['0'] else toHexCore n n

/-- `json_value_from_u32` from cairo_abi.rs:
`Value::String(format!("0x{:x}", val))`, modelled as the string
contents. -/
def json_value_from_u32 (val : Nat) : Str := "0x".toList ++ toHexLower val

/-- `BigUint::from_bytes_be`. -/
def fromBytesBE (bytes : List Nat) : Nat :=
  bytes.foldl (fun acc b => acc * 256 + b) 0

/-- `bytes_to_felt252` from merkle.rs:
`format!("0x{}", BigUint::from_bytes_be(bytes).to_str_radix(16))`. -/
def bytes_to_felt252 (bytes : List Nat) : Str :=
  "0x".toList ++ toHexLower (fromBytesBE bytes)

/-- `json_value_from_bytes` from cairo_abi.rs. -/
def json_value_from_bytes (bytes : List Nat) : Str := bytes_to_felt252 bytes

/-- `generate_args` from cairo_abi.rs (the source always returns `Ok`;
modelled as the list of JSON string values). Lengths are `usize → u32`
casts. -/
def generate_args (inputs expected : List Nat) (root : List Nat)
    (progWords : List Nat) : List Str :=
  [json_value_from_u32 (inputs.length % 2 ^ 32)] ++
    inputs.map json_value_from_u32 ++
  [json_value_from_u32 (expected.length % 2 ^ 32)] ++
    expected.map json_value_from_u32 ++
  [json_value_from_bytes root] ++
  [json_value_from_u32 (progWords.length % 2 ^ 32)] ++
    progWords.map json_value_from_u32

/-! ## Claim theorems for the assembler and encoders -/

deriving instance DecidableEq for Except

/-- C4: `encode_programs` emits, for each of the four nodes in row-major
order, one word equal to that node's instruction count followed by the
encoding of each of its instructions in order, with no other framing; an
all-empty grid encodes to `[0,0,0,0]`, and a grid whose only node (0,0)
holds NOP then HLT encodes to `[2, encode NOP, encode HLT, 0, 0, 0]`.
(The length words are `usize → u32` casts in the source, hence the
`< 2 ^ 32` bounds.) -/
theorem C4_encode_image :
    (∀ p00 p01 p10 p11 : List Inst,
      p00.length < 2 ^ 32 → p01.length < 2 ^ 32 →
      p10.length < 2 ^ 32 → p11.length < 2 ^ 32 →
      encode_programs [[p00, p01], [p10, p11]] =
        (p00.length :: p00.map Inst.encode) ++
        (p01.length :: p01.map Inst.encode) ++
        (p10.length :: p10.map Inst.encode) ++
        (p11.length :: p11.map Inst.encode)) ∧
    encode_programs [[[], []], [[], []]] = [0, 0, 0, 0] ∧
    encode_programs [[[⟨.Nop, .Nil, .Nil⟩, ⟨.Hlt, .Nil, .Nil⟩], []], [[], []]] =
      [2, Inst.encode ⟨.Nop, .Nil, .Nil⟩, Inst.encode ⟨.Hlt, .Nil, .Nil⟩,
        0, 0, 0] := by
  refine ⟨?_, by decide, by decide⟩
  intro p00 p01 p10 p11 h0 h1 h2 h3
  simp [encode_programs, nodeBlock, Nat.mod_eq_of_lt h0,
    Nat.mod_eq_of_lt h1, Nat.mod_eq_of_lt h2, Nat.mod_eq_of_lt h3]
  norm_num at h0 h1 h2 h3
  exact ⟨h0, h1, h2, h3⟩

/-- Witness for C4 at a one-instruction grid. -/
theorem C4_encode_image_witness :
    encode_programs [[[⟨.Nop, .Nil, .Nil⟩], []], [[], []]] =
      (([⟨.Nop, .Nil, .Nil⟩] : List Inst).length ::
        ([⟨.Nop, .Nil, .Nil⟩] : List Inst).map Inst.encode) ++
      (([] : List Inst).length :: ([] : List Inst).map Inst.encode) ++
      (([] : List Inst).length :: ([] : List Inst).map Inst.encode) ++
      (([] : List Inst).length :: ([] : List Inst).map Inst.encode) :=
  C4_encode_image.1 [⟨.Nop, .Nil, .Nil⟩] [] [] []
    (by decide) (by decide) (by decide) (by decide)

/-- The operations `parse_instruction` treats as taking no operand. -/
def Op.noOperand : Op → Bool
  | .Nop | .Hlt | .Neg | .Sav | .Swp => true
  | _ => false

/-- C7 counterexample: the line `NOP 5` — a no-operand mnemonic followed
by an operand token — does **not** fail assembly: `parse_instruction`
accepts it (ignoring the extra token) and a whole program containing it
assembles successfully. The claim's "fails assembly with a parse error"
is false on the code. -/
theorem C7_counterexample :
    parse_instruction ("NOP 5".toList) [] = .ok ⟨.Nop, .Nil, .Nil⟩ ∧
    parse_assemblyD (["NODE (0,0)", "NOP 5"].map String.toList) =
      .ok [[[⟨.Nop, .Nil, .Nil⟩], []], [[], []]] :=
  ⟨rfl, rfl⟩

/-- C7 (amended): for the no-operand operations (NOP, HLT, NEG, SAV,
SWP) any tokens after the mnemonic are silently ignored — the line
parses successfully to the instruction with both operands Nil — and
every successfully parsed instruction whose operation is a no-operand
operation has both operands equal to Nil. -/
theorem C7_no_operand_ops (line : Str) (labels : LabelMap) :
    (∀ p0 rest op, splitWs line = p0 :: rest → Op.fromStr p0 = .ok op →
      op.noOperand = true →
      parse_instruction line labels = .ok ⟨op, .Nil, .Nil⟩) ∧
    (∀ i, parse_instruction line labels = .ok i → i.op.noOperand = true →
      i.src = .Nil ∧ i.dst = .Nil) := by
  constructor
  · intro p0 rest op hsplit hop hno
    cases op <;>
      first
      | exact absurd hno (by decide)
      | simp [parse_instruction, hsplit, hop]
  · intro i hok hno
    cases hsplit : splitWs line with
    | nil => simp [parse_instruction, hsplit] at hok
    | cons p0 rest =>
      simp only [parse_instruction, hsplit] at hok
      repeat' split at hok
      all_goals try cases hok
      all_goals
        first
        | exact ⟨rfl, rfl⟩
        | exact absurd hno (by decide)
        | simp [Op.noOperand] at hno

/-- Witness for C7 (amended) at the line `NOP 5`. -/
theorem C7_no_operand_ops_witness :
    parse_instruction ("NOP 5".toList) [] = .ok ⟨.Nop, .Nil, .Nil⟩ ∧
    ((⟨.Nop, .Nil, .Nil⟩ : Inst).src = .Nil ∧
      (⟨.Nop, .Nil, .Nil⟩ : Inst).dst = .Nil) :=
  ⟨(C7_no_operand_ops ("NOP 5".toList) []).1 ("NOP".toList) ["5".toList]
      .Nop (by decide) (by decide) (by decide),
    (C7_no_operand_ops ("NOP 5".toList) []).2 ⟨.Nop, .Nil, .Nil⟩
      (by decide) (by decide)⟩

/-- C10: a line that starts with `NODE` but has fewer than two
whitespace-separated tokens is silently skipped by the first pass — the
state (in particular the current-node context) is unchanged and no error
is raised — so subsequent instruction lines still attach to the
previously selected node, or are dropped when no node was ever
selected. -/
theorem C10_short_node_line :
    (∀ (st : Pass1State) (line : Str),
      strStartsWith (trimStr line) ("NODE".toList) = true →
      (splitWs (trimStr line)).length < 2 →
      pass1Step st line = .ok st) ∧
    parse_assemblyD (["NODE (0,0)", "NODE", "NOP"].map String.toList) =
      .ok [[[⟨.Nop, .Nil, .Nil⟩], []], [[], []]] ∧
    parse_assemblyD (["NODE", "NOP", "HLT"].map String.toList) =
      .ok [[[], []], [[], []]] := by
  refine ⟨?_, rfl, rfl⟩
  intro st line hnode hshort
  cases ht : trimStr line with
  | nil => rw [ht] at hnode; exact absurd hnode (by decide)
  | cons c cs =>
    rw [ht] at hnode hshort
    have hc : c = 'N' := by
      simp only [strStartsWith, Bool.and_eq_true, beq_iff_eq] at hnode
      exact hnode.1.symm
    subst hc
    have h1 : List.isEmpty ('N' :: cs) = false := rfl
    have h2 : strStartsWith ('N' :: cs) ("#".toList) = false := rfl
    have h3 : strStartsWith ('N' :: cs) ("//".toList) = false := rfl
    simp only [pass1Step, ht, h1, h2, h3, hnode, Bool.false_or,
      Bool.false_eq_true, if_false, if_true, ite_true, ite_false]
    cases hsp : splitWs ('N' :: cs) with
    | nil => rfl
    | cons a tl =>
      cases tl with
      | nil => rfl
      | cons b tl2 =>
        rw [hsp] at hshort
        simp only [List.length_cons] at hshort
        omega

/-- Witness for C10 at the bare line `NODE` from the empty state. -/
theorem C10_short_node_line_witness :
    pass1Step initPass1 ("NODE".toList) = .ok initPass1 :=
  C10_short_node_line.1 initPass1 ("NODE".toList) (by decide) (by decide)

theorem toHexCore_subset :
    ∀ fuel n, ∀ c ∈ toHexCore fuel n, c ∈ "0123456789abcdef".toList := by
  intro fuel
  induction fuel with
  | zero => intro n c h; simp [toHexCore] at h
  | succ fuel ih =>
    intro n c h
    by_cases hn : n = 0
    · simp [toHexCore, hn] at h
    · simp only [toHexCore, if_neg hn] at h
      rcases List.mem_append.mp h with h1 | h2
      · exact ih _ _ h1
      · have h16 : n % 16 < 16 := Nat.mod_lt _ (by decide)
        have hall : ∀ m, m < 16 → hexDigitChar m ∈ "0123456789abcdef".toList := by
          decide
        simp only [List.mem_singleton] at h2
        rw [h2]
        exact hall _ h16

theorem toHexLower_subset (n : Nat) :
    ∀ c ∈ toHexLower n, c ∈ "0123456789abcdef".toList := by
  intro c h
  by_cases hn : n = 0
  · simp only [toHexLower, if_pos hn, List.mem_singleton] at h
    rw [h]; decide
  · simp only [toHexLower, if_neg hn] at h
    exact toHexCore_subset n n c h

/-- C9: `generate_args` emits, in order, the length of `inputs` then each
input, the length of `expected` then each expected value, the commitment
root, and the length of `prog_words` then each program word; every
numeric value is a string of lowercase-hex characters prefixed with
`0x` (never a raw number — the model returns JSON strings only), with 42
rendered as `"0x2a"`, and the concrete instance from the source's test
reproduced exactly. -/
theorem C9_generate_args_format (inputs expected root progWords : List Nat)
    (hi : inputs.length < 2 ^ 32) (he : expected.length < 2 ^ 32)
    (hp : progWords.length < 2 ^ 32) :
    generate_args inputs expected root progWords =
      [json_value_from_u32 inputs.length] ++ inputs.map json_value_from_u32 ++
      [json_value_from_u32 expected.length] ++
      expected.map json_value_from_u32 ++
      [json_value_from_bytes root] ++
      [json_value_from_u32 progWords.length] ++
      progWords.map json_value_from_u32 ∧
    (∀ v, json_value_from_u32 v = '0' :: 'x' :: toHexLower v) ∧
    (∀ v c, c ∈ toHexLower v → c ∈ "0123456789abcdef".toList) ∧
    json_value_from_u32 42 = "0x2a".toList ∧
    generate_args [1, 2, 3] [10, 20] [0x12, 0x34, 0x56, 0x78]
        [100, 200, 300, 400] =
      ["0x3", "0x1", "0x2", "0x3", "0x2", "0xa", "0x14", "0x12345678",
        "0x4", "0x64", "0xc8", "0x12c", "0x190"].map String.toList := by
  refine ⟨?_, fun v => rfl, fun v => toHexLower_subset v, by decide, by decide⟩
  simp only [generate_args, Nat.mod_eq_of_lt hi, Nat.mod_eq_of_lt he,
    Nat.mod_eq_of_lt hp]

/-- Witness for C9 at the source test's inputs. -/
theorem C9_generate_args_format_witness :
    generate_args [1, 2, 3] [10, 20] [0x12, 0x34, 0x56, 0x78]
        [100, 200, 300, 400] =
      [json_value_from_u32 ([1, 2, 3] : List Nat).length] ++
      ([1, 2, 3] : List Nat).map json_value_from_u32 ++
      [json_value_from_u32 ([10, 20] : List Nat).length] ++
      ([10, 20] : List Nat).map json_value_from_u32 ++
      [json_value_from_bytes [0x12, 0x34, 0x56, 0x78]] ++
      [json_value_from_u32 ([100, 200, 300, 400] : List Nat).length] ++
      ([100, 200, 300, 400] : List Nat).map json_value_from_u32 ∧
    (∀ v, json_value_from_u32 v = '0' :: 'x' :: toHexLower v) ∧
    (∀ v c, c ∈ toHexLower v → c ∈ "0123456789abcdef".toList) ∧
    json_value_from_u32 42 = "0x2a".toList ∧
    generate_args [1, 2, 3] [10, 20] [0x12, 0x34, 0x56, 0x78]
        [100, 200, 300, 400] =
      ["0x3", "0x1", "0x2", "0x3", "0x2", "0xa", "0x14", "0x12345678",
        "0x4", "0x64", "0xc8", "0x12c", "0x190"].map String.toList :=
  C9_generate_args_format [1, 2, 3] [10, 20] [0x12, 0x34, 0x56, 0x78]
    [100, 200, 300, 400] (by decide) (by decide) (by decide)

theorem toUpper_of_digit (c : Char) (h : c.isDigit = true) : c.toUpper = c := by
  simp only [Char.isDigit, Bool.and_eq_true, decide_eq_true_eq] at h
  have h57 : c.toNat ≤ 57 := UInt32.toNat_le_of_le (by decide) h.2
  unfold Char.toUpper
  rw [if_neg]
  simp only [not_and, not_le]
  intro h97
  omega

theorem not_digit_sign_of_toUpper_P (c : Char) (h : 'P' = c.toUpper) :
    c.isDigit = false ∧ c ≠ '+' ∧ c ≠ '-' := by
  refine ⟨?_, ?_, ?_⟩
  · cases hd : c.isDigit
    · rfl
    · rw [toUpper_of_digit c hd] at h
      rw [← h] at hd
      exact absurd hd (by decide)
  · intro hc; rw [hc] at h; exact absurd h (by decide)
  · intro hc; rw [hc] at h; exact absurd h (by decide)

theorem stripPlus_of_ne (c : Char) (cs : Str) (h : c ≠ '+') :
    stripPlus (c :: cs) = c :: cs := by
  unfold stripPlus
  split
  · rename_i heq
    injection heq with h1 h2
    exact absurd h1 h
  · rfl

theorem parse_num_none_of_head (c0 : Char) (cs : Str)
    (hd : c0.isDigit = false) (hplus : c0 ≠ '+') (hminus : c0 ≠ '-') :
    parseU32? (c0 :: cs) = none ∧ parseI32? (c0 :: cs) = none := by
  have hbody : parseNatBody? (c0 :: cs) = none := by
    simp [parseNatBody?, hd]
  constructor
  · simp [parseU32?, stripPlus_of_ne c0 cs hplus, hbody]
  · unfold parseI32?
    split
    · rename_i rest heq
      injection heq with h1 h2
      exact absurd h1 hminus
    · rw [stripPlus_of_ne c0 cs hplus, hbody]

theorem parse_ints_none_of_port (s : Str)
    (hport : strStartsWith (toUpperStr s) ("P:".toList) = true) :
    parseU32? s = none ∧ parseI32? s = none := by
  match s with
  | [] => simp [toUpperStr, strStartsWith] at hport
  | [c0] => simp [toUpperStr, strStartsWith] at hport
  | c0 :: c1 :: rest =>
    simp only [toUpperStr, List.map_cons, strStartsWith, Bool.and_eq_true,
      beq_iff_eq] at hport
    obtain ⟨hd, hplus, hminus⟩ := not_digit_sign_of_toUpper_P c0 hport.1
    exact parse_num_none_of_head c0 (c1 :: rest) hd hplus hminus

theorem PortTag.fromStr_ok_iff (d : Str) :
    (∃ p, PortTag.fromStr d = .ok p) ↔
      toUpperStr d ∈ ["UP".toList, "DOWN".toList, "LEFT".toList,
        "RIGHT".toList] := by
  simp only [PortTag.fromStr]
  split_ifs with h1 h2 h3 h4 <;> simp_all

/-- The spec's "valid source operand form", defined from the spec's
words: one of the named operands `ACC`/`NIL`/`IN`/`LAST`
(case-insensitive), a `P:`-prefixed port with a valid direction name, or
a valid integer (accepted by the `u32` or the `i32` parse). -/
def validSrcToken (s : Str) : Prop :=
  toUpperStr s ∈ ["ACC".toList, "NIL".toList, "IN".toList, "LAST".toList] ∨
  (strStartsWith (toUpperStr s) ("P:".toList) = true ∧
    toUpperStr ((toUpperStr s).drop 2) ∈
      ["UP".toList, "DOWN".toList, "LEFT".toList, "RIGHT".toList]) ∨
  (parseU32? s).isSome = true ∨ (parseI32? s).isSome = true

/-- C8: a source operand token absent from the node's label table falls
through to `Src::from_str` on that same token (in particular to its
numeric-literal parsing), and resolution fails exactly when the token is
neither a valid integer nor any other valid source operand form; the
failure for a non-port-shaped token is the plain malformed-operand
message (no distinct undefined-label error kind exists). -/
theorem C8_undefined_label_surface (s : Str) (labels : LabelMap)
    (habs : lookupLabel labels s = none) :
    parse_src_operand s labels = Src.fromStr s ∧
    ((∃ e, Src.fromStr s = .error e) ↔ ¬ validSrcToken s) ∧
    (¬ validSrcToken s →
      strStartsWith (toUpperStr s) ("P:".toList) = false →
      parse_src_operand s labels =
        .error ("Invalid source operand: ".toList ++ s)) := by
  have h1 : parse_src_operand s labels = Src.fromStr s := by
    unfold parse_src_operand; rw [habs]
  refine ⟨h1, ?_, ?_⟩
  · simp only [Src.fromStr]
    split_ifs with hacc hnil hin hlast hport
    · exact iff_of_false (fun ⟨e, he⟩ => nomatch he)
        (not_not_intro (Or.inl (by rw [hacc]; decide)))
    · exact iff_of_false (fun ⟨e, he⟩ => nomatch he)
        (not_not_intro (Or.inl (by rw [hnil]; decide)))
    · exact iff_of_false (fun ⟨e, he⟩ => nomatch he)
        (not_not_intro (Or.inl (by rw [hin]; decide)))
    · exact iff_of_false (fun ⟨e, he⟩ => nomatch he)
        (not_not_intro (Or.inl (by rw [hlast]; decide)))
    · cases hpt : PortTag.fromStr ((toUpperStr s).drop 2) with
      | ok p =>
        have hmem := (PortTag.fromStr_ok_iff _).mp ⟨p, hpt⟩
        exact iff_of_false (fun ⟨e, he⟩ => nomatch he)
          (not_not_intro (Or.inr (Or.inl ⟨hport, hmem⟩)))
      | error e =>
        have hnmem : toUpperStr ((toUpperStr s).drop 2) ∉
            ["UP".toList, "DOWN".toList, "LEFT".toList, "RIGHT".toList] := by
          intro hmem
          obtain ⟨p, hp⟩ := (PortTag.fromStr_ok_iff _).mpr hmem
          rw [hpt] at hp
          exact absurd hp (by simp)
        obtain ⟨hu32, hi32⟩ := parse_ints_none_of_port s hport
        refine iff_of_true ⟨e, rfl⟩ ?_
        rintro (hA | ⟨-, hmem⟩ | hC | hD)
        · simp only [List.mem_cons, List.not_mem_nil, or_false] at hA
          rcases hA with h | h | h | h
          exacts [hacc h, hnil h, hin h, hlast h]
        · exact hnmem hmem
        · rw [hu32] at hC; exact absurd hC (by simp)
        · rw [hi32] at hD; exact absurd hD (by simp)
    · cases hu : parseU32? s with
      | some v =>
        exact iff_of_false (fun ⟨e, he⟩ => nomatch he)
          (not_not_intro (Or.inr (Or.inr (Or.inl (by rw [hu]; rfl)))))
      | none =>
        cases hi : parseI32? s with
        | some n =>
          exact iff_of_false (fun ⟨e, he⟩ => nomatch he)
            (not_not_intro (Or.inr (Or.inr (Or.inr (by rw [hi]; rfl)))))
        | none =>
          refine iff_of_true ⟨"Invalid source operand: ".toList ++ s, rfl⟩ ?_
          rintro (hA | ⟨hp, -⟩ | hC | hD)
          · simp only [List.mem_cons, List.not_mem_nil, or_false] at hA
            rcases hA with h | h | h | h
            exacts [hacc h, hnil h, hin h, hlast h]
          · exact hport hp
          · rw [hu] at hC; exact absurd hC (by simp)
          · rw [hi] at hD; exact absurd hD (by simp)
  · intro hnv hnp
    rw [h1]
    simp only [validSrcToken, not_or, List.mem_cons, List.not_mem_nil] at hnv
    obtain ⟨hA, hB, hC, hD⟩ := hnv
    push_neg at hA
    obtain ⟨hacc, hnil, hin, hlast, -⟩ := hA
    simp only [Src.fromStr]
    rw [if_neg hacc, if_neg hnil, if_neg hin, if_neg hlast,
      if_neg (by simp only [Bool.not_eq_true]; exact hnp)]
    cases hu : parseU32? s with
    | some v => rw [hu] at hC; exact absurd rfl hC
    | none =>
      cases hi : parseI32? s with
      | some n => rw [hi] at hD; exact absurd rfl hD
      | none => rfl

/-- Witness for C8 at the unbound token `xyz` and the empty table. -/
theorem C8_undefined_label_surface_witness :
    parse_src_operand ("xyz".toList) [] = Src.fromStr ("xyz".toList) ∧
    ((∃ e, Src.fromStr ("xyz".toList) = .error e) ↔
      ¬ validSrcToken ("xyz".toList)) ∧
    (¬ validSrcToken ("xyz".toList) →
      strStartsWith (toUpperStr ("xyz".toList)) ("P:".toList) = false →
      parse_src_operand ("xyz".toList) [] =
        .error ("Invalid source operand: ".toList ++ "xyz".toList)) :=
  C8_undefined_label_surface ("xyz".toList) [] rfl

/-- C6: a label line processed while node `k` is current binds the label
name to the number of instruction lines pending for `k` at that point
(the PC of the next instruction); a name bound to `n` in the label table
resolves as a jump/source operand to the literal `n` (cast `usize → u32`);
and in the spec's example, `JNZ loop` with `loop` declared at the very
top of node (0,0) resolves to literal 0. -/
theorem C6_label_resolution :
    (∀ (st : Pass1State) (k : Fin 2 × Fin 2) (name : Str),
      st.currentNode = some k →
      trimStr (name ++ [':']) = name ++ [':'] →
      strStartsWith (name ++ [':']) ("#".toList) = false →
      strStartsWith (name ++ [':']) ("//".toList) = false →
      strStartsWith (name ++ [':']) ("NODE".toList) = false →
      dropTrailing (name ++ [':']) ':' = name →
      ∃ st', pass1Step st (name ++ [':']) = .ok st' ∧
        lookupLabel (st'.labels k) name = some (st.instrs k).length ∧
        st'.instrs = st.instrs ∧ st'.currentNode = st.currentNode) ∧
    (∀ (labels : LabelMap) (name : Str) (n : Nat),
      lookupLabel labels name = some n →
      parse_src_operand name labels = .ok (.Lit (n % 2 ^ 32))) ∧
    parse_assemblyD (["NODE (0,0)", "loop:", "    ADD 1", "    JNZ loop",
        "    HLT"].map String.toList) =
      .ok [[[⟨.Add, .Lit 1, .Nil⟩, ⟨.Jnz, .Lit 0, .Nil⟩,
        ⟨.Hlt, .Nil, .Nil⟩], []], [[], []]] := by
  refine ⟨?_, ?_, rfl⟩
  · intro st k name hcur htrim hcmt1 hcmt2 hnode hdrop
    have hne : (name ++ [':']).isEmpty = false := by cases name <;> rfl
    have hend : strEndsWithChar (name ++ [':']) ':' = true := by
      simp [strEndsWithChar, List.getLast?_concat]
    refine ⟨({ st with
                labels := upd st.labels k
                  ((name, (st.instrs k).length) :: st.labels k) } :
          Pass1State),
      ?_, ?_, rfl, rfl⟩
    · simp only [pass1Step, htrim, hne, hcmt1, hcmt2, hnode, hend, hcur,
        hdrop, Bool.or_self, Bool.false_or, Bool.false_eq_true, if_false,
        ite_false, if_true, ite_true]
    · simp [upd, lookupLabel]
  · intro labels name n hlook
    unfold parse_src_operand
    rw [hlook]

/-- Witness for C6 with `loop` declared at the top of node (0,0). -/
theorem C6_label_resolution_witness :
    (∃ st', pass1Step
        ⟨some (0, 0), fun _ => [], fun _ => [], [(0, 0)]⟩
        ("loop".toList ++ [':']) = .ok st' ∧
      lookupLabel (st'.labels (0, 0)) ("loop".toList) =
        some ((Pass1State.instrs
          ⟨some (0, 0), fun _ => [], fun _ => [], [(0, 0)]⟩ (0, 0)).length) ∧
      st'.instrs = Pass1State.instrs
        ⟨some (0, 0), fun _ => [], fun _ => [], [(0, 0)]⟩ ∧
      st'.currentNode = Pass1State.currentNode
        ⟨some (0, 0), fun _ => [], fun _ => [], [(0, 0)]⟩) ∧
    parse_src_operand ("loop".toList) [("loop".toList, 0)] =
      .ok (.Lit (0 % 2 ^ 32)) :=
  ⟨C6_label_resolution.1 ⟨some (0, 0), fun _ => [], fun _ => [], [(0, 0)]⟩
      (0, 0) ("loop".toList) rfl (by decide) (by decide) (by decide)
      (by decide) (by decide),
    C6_label_resolution.2.1 [("loop".toList, 0)] ("loop".toList) 0 (by decide)⟩

/-- The instructions the second pass produces for one node key (the
value pushed into that node's cell when its lines all parse). -/
def nodeValue (st : Pass1State) (k : Fin 2 × Fin 2) : List Inst :=
  (parseNode (st.labels k) (st.instrs k)).toOption.getD []

theorem pass1Step_keys_nodup (st : Pass1State) (l : Str) (st' : Pass1State)
    (h : pass1Step st l = .ok st') (hnd : st.keys.Nodup) : st'.keys.Nodup := by
  simp only [pass1Step] at h
  repeat' split at h
  all_goals try cases h
  all_goals try exact hnd
  all_goals simp_all [List.nodup_append]

theorem pass1Run_keys_nodup :
    ∀ (lines : List Str) (st st' : Pass1State),
      pass1Run st lines = .ok st' → st.keys.Nodup → st'.keys.Nodup
  | [], st, st', h, hnd => by
    simp only [pass1Run] at h
    cases h
    exact hnd
  | l :: ls, st, st', h, hnd => by
    simp only [pass1Run] at h
    cases hstep : pass1Step st l with
    | error e => rw [hstep] at h; cases h
    | ok st1 =>
      rw [hstep] at h
      exact pass1Run_keys_nodup ls st1 st' h
        (pass1Step_keys_nodup st l st1 hstep hnd)

theorem pass2_ok_char (st : Pass1State) :
    ∀ (order : List (Fin 2 × Fin 2)) (g0 g : Fin 2 × Fin 2 → List Inst),
      order.Nodup → pass2 st order g0 = .ok g →
      ∀ q, g q = g0 q ++ (if q ∈ order then nodeValue st q else [])
  | [], g0, g, _, h, q => by
    simp only [pass2] at h
    cases h
    simp
  | k :: ks, g0, g, hnd, h, q => by
    simp only [pass2] at h
    cases hpn : parseNode (st.labels k) (st.instrs k) with
    | error e => rw [hpn] at h; cases h
    | ok v =>
      rw [hpn] at h
      have hk : k ∉ ks := (List.nodup_cons.mp hnd).1
      have ih := pass2_ok_char st ks (upd g0 k (g0 k ++ v)) g
        (List.nodup_cons.mp hnd).2 h q
      by_cases hq : q = k
      · subst hq
        rw [ih]
        simp only [upd, if_pos rfl, if_neg hk, List.append_nil]
        have : nodeValue st q = v := by
          simp [nodeValue, hpn, Except.toOption]
        simp [this, List.mem_cons]
      · rw [ih]
        simp only [upd, if_neg hq]
        by_cases hqks : q ∈ ks
        · rw [if_pos hqks, if_pos (List.mem_cons_of_mem _ hqks)]
        · rw [if_neg hqks, if_neg (by simp [List.mem_cons, hq, hqks])]

theorem nodeBlock_append_inj (p p' : List Inst) (r r' : List Nat)
    (hp : p.length < 2 ^ 32) (hp' : p'.length < 2 ^ 32)
    (h : nodeBlock p ++ r = nodeBlock p' ++ r') :
    p.map Inst.encode = p'.map Inst.encode ∧ r = r' := by
  simp only [nodeBlock, Nat.mod_eq_of_lt hp, Nat.mod_eq_of_lt hp',
    List.cons_append] at h
  injection h with h0 h1
  exact List.append_inj h1 (by simp [h0])

theorem nodeLeaf_eq_of_map (hash : Nat → Nat → Nat) (p p' : List Inst)
    (h : p.map Inst.encode = p'.map Inst.encode) :
    nodeLeaf hash p = nodeLeaf hash p' := by
  have hemp : p.isEmpty = p'.isEmpty := by
    cases p <;> cases p' <;> simp_all
  unfold nodeLeaf
  rw [hemp, h]

/-- C5: assembly followed by image encoding is deterministic — for one
source text, any two runs of the second pass over any two iteration
orders of the node-key HashMap produce the same grid, hence identical
word sequences — and the commitment root (through its 32-byte
serialisation) is a pure function of the encoded word sequence: grids
with identical images get identical roots. -/
theorem C5_determinism :
    (∀ (lines : List Str) (st : Pass1State)
        (o1 o2 : List (Fin 2 × Fin 2)) (g1 g2 : Programs),
      pass1Run initPass1 lines = .ok st →
      o1.Perm st.keys → o2.Perm st.keys →
      parse_assembly lines o1 = .ok g1 → parse_assembly lines o2 = .ok g2 →
      g1 = g2 ∧ encode_programs g1 = encode_programs g2) ∧
    (∀ (hash : Nat → Nat → Nat) (a b c d a' b' c' d' : List Inst),
      a.length < 2 ^ 32 → b.length < 2 ^ 32 → c.length < 2 ^ 32 →
      d.length < 2 ^ 32 → a'.length < 2 ^ 32 → b'.length < 2 ^ 32 →
      c'.length < 2 ^ 32 → d'.length < 2 ^ 32 →
      encode_programs [[a, b], [c, d]] =
        encode_programs [[a', b'], [c', d']] →
      rootBytes (compute_program_merkle_root hash [[a, b], [c, d]]) =
        rootBytes (compute_program_merkle_root hash [[a', b'], [c', d']])) := by
  constructor
  · intro lines st o1 o2 g1 g2 hst hperm1 hperm2 h1 h2
    have hnd : st.keys.Nodup :=
      pass1Run_keys_nodup lines initPass1 st hst List.nodup_nil
    have hnd1 : o1.Nodup := hperm1.nodup_iff.mpr hnd
    have hnd2 : o2.Nodup := hperm2.nodup_iff.mpr hnd
    simp only [parse_assembly, hst] at h1 h2
    have hg : g1 = g2 := by
      cases hp1 : pass2 st o1 (fun _ => []) with
      | error e => rw [hp1] at h1; cases h1
      | ok gm1 =>
        rw [hp1] at h1
        cases hp2 : pass2 st o2 (fun _ => []) with
        | error e => rw [hp2] at h2; cases h2
        | ok gm2 =>
          rw [hp2] at h2
          cases h1; cases h2
          have hchar1 := pass2_ok_char st o1 (fun _ => []) gm1 hnd1 hp1
          have hchar2 := pass2_ok_char st o2 (fun _ => []) gm2 hnd2 hp2
          have heq : ∀ q, gm1 q = gm2 q := by
            intro q
            rw [hchar1 q, hchar2 q]
            have hmemiff : (q ∈ o1) ↔ (q ∈ o2) := by
              rw [hperm1.mem_iff, hperm2.mem_iff]
            by_cases hq : q ∈ o1
            · rw [if_pos hq, if_pos (hmemiff.mp hq)]
            · rw [if_neg hq, if_neg (fun hc => hq (hmemiff.mpr hc))]
          simp only [gridToPrograms, heq (0, 0), heq (0, 1), heq (1, 0),
            heq (1, 1)]
    exact ⟨hg, by rw [hg]⟩
  · intro hash a b c d a' b' c' d' ha hb hc hd ha' hb' hc' hd' henc
    simp only [encode_programs, List.flatten, List.map_cons, List.map_nil,
      List.append_nil, List.append_assoc] at henc
    obtain ⟨e1, henc⟩ := nodeBlock_append_inj a a' _ _ ha ha' henc
    obtain ⟨e2, henc⟩ := nodeBlock_append_inj b b' _ _ hb hb' henc
    obtain ⟨e3, e4pre⟩ := nodeBlock_append_inj c c' _ _ hc hc' henc
    have e4 : d.map Inst.encode = d'.map Inst.encode := by
      have := nodeBlock_append_inj d d' [] [] hd hd'
        (by rw [List.append_nil, List.append_nil, e4pre])
      exact this.1
    have hroot : compute_program_merkle_root hash [[a, b], [c, d]] =
        compute_program_merkle_root hash [[a', b'], [c', d']] := by
      simp only [compute_program_merkle_root, List.flatten, List.map_cons,
        List.map_nil, List.append_nil, List.cons_append, List.nil_append]
      rw [nodeLeaf_eq_of_map hash a a' e1, nodeLeaf_eq_of_map hash b b' e2,
        nodeLeaf_eq_of_map hash c c' e3, nodeLeaf_eq_of_map hash d d' e4]
    rw [hroot]

/-- Witness for C5: the one-node program `NODE (0,0); NOP`, the same
iteration order twice, and equal one-instruction grids. -/
theorem C5_determinism_witness :
    (([[[⟨.Nop, .Nil, .Nil⟩], []], [[], []]] : Programs) =
        [[[⟨.Nop, .Nil, .Nil⟩], []], [[], []]] ∧
      encode_programs [[[⟨.Nop, .Nil, .Nil⟩], []], [[], []]] =
        encode_programs [[[⟨.Nop, .Nil, .Nil⟩], []], [[], []]]) ∧
    rootBytes (compute_program_merkle_root (fun x y => x + y)
        [[[⟨.Nop, .Nil, .Nil⟩], []], [[], []]]) =
      rootBytes (compute_program_merkle_root (fun x y => x + y)
        [[[⟨.Nop, .Nil, .Nil⟩], []], [[], []]]) :=
  ⟨C5_determinism.1 (["NODE (0,0)", "NOP"].map String.toList)
      ⟨some (0, 0), fun _ => [], upd (fun _ => []) (0, 0) ["NOP".toList],
        [(0, 0)]⟩
      [(0, 0)] [(0, 0)]
      [[[⟨.Nop, .Nil, .Nil⟩], []], [[], []]]
      [[[⟨.Nop, .Nil, .Nil⟩], []], [[], []]]
      rfl (List.Perm.refl _) (List.Perm.refl _) rfl rfl,
    C5_determinism.2 (fun x y => x + y)
      [⟨.Nop, .Nil, .Nil⟩] [] [] [] [⟨.Nop, .Nil, .Nil⟩] [] [] []
      (by decide) (by decide) (by decide) (by decide)
      (by decide) (by decide) (by decide) (by decide) rfl⟩

end ZK100
